import Mathlib

/-!
Shallow embedding of the voice-memo transcription pipeline
(src/watcher.py, src/app.py, src/config.py) and proofs about it.

Machine conventions:
* file bytes are `List Nat`;
* wall-clock times and datetimes are `Nat` (a datetime is encoded as the
  14-digit number yyyymmddhhmmss, whose numeric order coincides with
  chronological order for valid datetimes);
* the MD5 content hash is an arbitrary deterministic function
  `H : List Nat → String`, a parameter of every definition that hashes;
* external tools (ffprobe, ffmpeg, whisper-cli) are oracles describing the
  observable outcome of one invocation.
-/

namespace TranscriptionApp

/-- Bytes of a file. -/
abbrev Bytes := List Nat

/-- Python `str.isspace` characters relevant to `str.strip()`. -/
def pyIsSpace (c : Char) : Bool :=
  c == ' ' || c == '\t' || c == '\n' || c == '\r' || c == '\x0b' || c == '\x0c'

/-- Python `str.strip()` on a character list. -/
def pyStripList (cs : List Char) : List Char :=
  ((cs.dropWhile pyIsSpace).reverse.dropWhile pyIsSpace).reverse

/-- Python `str.strip()`. -/
def pyStrip (s : String) : String :=
  String.mk (pyStripList s.toList)

/-- Python `str.lower()` (ASCII case folding suffices for extensions). -/
def pyLower (s : String) : String :=
  String.mk (s.toList.map Char.toLower)

/-- Index of the last occurrence of a dot in a character list, if any
(`str.rfind` used by `pathlib.PurePath.suffix`). -/
def lastDotIdxAux : List Char → Nat → Option Nat
  | [], _ => none
  | c :: cs, i =>
    match lastDotIdxAux cs (i + 1) with
    | some j => some j
    | none => if c == '.' then some i else none

/-- Model of `pathlib.PurePath.suffix` applied to a file name: the part from
the last dot on, provided the dot is neither the first nor the last
character; otherwise the empty string. -/
def pySuffix (name : String) : String :=
  let cs := name.toList
  match lastDotIdxAux cs 0 with
  | some i => if 0 < i && i < cs.length - 1 then String.mk (cs.drop i) else ""
  | none => ""

/-- Model of `pathlib.PurePath.stem`: the file name with `pySuffix` removed. -/
def pyStem (name : String) : String :=
  String.mk (name.toList.take (name.toList.length - (pySuffix name).toList.length))

/-- One row of the `transcripts` table created by `init_db` in
src/watcher.py. -/
structure Record where
  id : Nat
  filename : String
  original_path : String
  file_hash : String
  transcript : Option String
  duration_seconds : Int
  language : Option String
  created_at : Nat
  transcribed_at : Option Nat
deriving Repr, DecidableEq

/-- The `transcripts` table: rows plus the AUTOINCREMENT counter. -/
structure DB where
  nextId : Nat
  records : List Record
deriving Repr, DecidableEq

/-- A freshly initialised database (SQLite AUTOINCREMENT starts at 1). -/
def DB.empty : DB := ⟨1, []⟩

/-- Model of `is_already_transcribed` in src/watcher.py: `SELECT id FROM
transcripts WHERE file_hash = ?` returned a row. -/
def is_already_transcribed (db : DB) (file_hash : String) : Bool :=
  db.records.any (fun r => r.file_hash == file_hash)

/-- Model of the `INSERT INTO transcripts (filename, original_path, file_hash,
transcript, duration_seconds, transcribed_at) VALUES (?,?,?,?,?,?)` statement
in `process_audio_file` (src/watcher.py).  The column list omits `language`,
so the stored row has a NULL `language`; `created_at` takes the SQLite
default CURRENT_TIMESTAMP, here `now`.  Returns the updated table and the
assigned row id. -/
def DB.insertTranscript (db : DB) (filename original_path file_hash transcript : String)
    (duration_seconds : Int) (transcribed_at : Nat) (now : Nat) : DB × Nat :=
  (⟨db.nextId + 1,
    db.records ++ [⟨db.nextId, filename, original_path, file_hash, some transcript,
      duration_seconds, none, now, some transcribed_at⟩]⟩, db.nextId)

/-- Model of the fetch in `view_transcript` (src/app.py): `SELECT * FROM
transcripts WHERE id = ?`. -/
def DB.fetch (db : DB) (id : Nat) : Option Record :=
  db.records.find? (fun r => r.id == id)

/-- Model of the row deletion in `delete_transcript` (src/app.py). -/
def DB.deleteRow (db : DB) (id : Nat) : DB :=
  ⟨db.nextId, db.records.filter (fun r => r.id != id)⟩

/-- A file as the pipeline sees it: display name, full path, byte size and
contents. -/
structure FileInfo where
  name : String
  path : String
  size : Nat
  content : Bytes
deriving Repr, DecidableEq

/-- The supported-extension list in `process_audio_file` (src/watcher.py
line 145). -/
def supportedExts : List String := [".m4a", ".mp3", ".wav", ".aac", ".ogg"]

/-- Mutable environment read by the pipeline: the persisted language setting
(`none` when the settings file is absent, unreadable or has no `language`
key) and the current wall-clock time. -/
structure World where
  languageSetting : Option String
  now : Nat
deriving Repr, DecidableEq

/-- The `DEFAULT_LANGUAGE` constant of src/config.py. -/
def DEFAULT_LANGUAGE : String := "auto"

/-- Model of `get_language_setting` (src/watcher.py): the persisted value
when present, else `DEFAULT_LANGUAGE`. -/
def get_language_setting (w : World) : String :=
  w.languageSetting.getD DEFAULT_LANGUAGE

/-- Outcome of the `ffprobe` duration probe in `get_audio_duration`. -/
inductive ProbeOutcome where
  | ok (d : Int)
  | fails
deriving Repr, DecidableEq

/-- Observable outcome of one `ffmpeg` invocation in `convert_to_wav`: the
process exit code and whether the output file exists afterwards. -/
structure ConvOutcome where
  exitCode : Int
  outputWritten : Bool
deriving Repr, DecidableEq

/-- Observable outcome of one whisper-cli invocation in `transcribe_audio`:
either the designated `.txt` output artifact was produced with the given
contents, or only standard output is available, or the invocation raised a
Python exception (e.g. the executable is missing). -/
inductive EngineOutcome where
  | wroteFile (contents : String)
  | stdoutOnly (out : String)
  | raises
deriving Repr, DecidableEq

/-- External-tool behaviour for one run of the per-file pipeline. -/
structure Oracle where
  probe : ProbeOutcome
  conv : ConvOutcome
  engine : EngineOutcome
deriving Repr, DecidableEq

/-- Model of `get_audio_duration` (src/watcher.py): the probed value, or `0.0`
when the probe fails (the `except` branch). -/
def get_audio_duration (o : Oracle) : Int :=
  match o.probe with
  | .ok d => d
  | .fails => 0

/-- One external-tool invocation, recorded in the run trace. -/
inductive ToolCall where
  | ffprobe (path : String)
  | ffmpeg (input output : String)
  | whisper (wav language : String)
  | notify (title message : String)
deriving Repr, DecidableEq

/-- How a run of `process_audio_file` ended: a normal return, or a Python
exception escaping the function. -/
inductive RunExit where
  | returned
  | raised
deriving Repr, DecidableEq

/-- Observable state touched by the pipeline: the database, the temporary
waveform artifacts currently present in TRANSCRIPTS_DIR, and the persisted
transcript text files (name, contents). -/
structure St where
  db : DB
  tempWavs : List String
  txtFiles : List (String × String)
deriving Repr, DecidableEq

/-- The state of a fresh installation. -/
def St.init : St := ⟨DB.empty, [], []⟩

/-- Remove a path from an artifact list. -/
def removePath (l : List String) (p : String) : List String :=
  l.filter (fun q => q ≠ p)

/-- Add a path to an artifact list (overwriting any previous entry). -/
def addPath (l : List String) (p : String) : List String :=
  p :: removePath l p

/-- Overwrite semantics of `write_text` on the transcript file list. -/
def setTxt (l : List (String × String)) (name contents : String) :
    List (String × String) :=
  (name, contents) :: l.filter (fun q => q.1 ≠ name)

/-- Result of one run of `process_audio_file`: final state, trace of external
tool invocations, and how the run ended. -/
structure RunResult where
  st : St
  calls : List ToolCall
  exit : RunExit
deriving Repr, DecidableEq

/-- The notification preview built in `process_audio_file`:
`transcript[:100] + "..."` when longer than 100 characters. -/
def previewOf (transcript : String) : String :=
  if transcript.toList.length > 100 then String.mk (transcript.toList.take 100) ++ "..."
  else transcript

/-- Model of `process_audio_file` (src/watcher.py lines 138-207), one run on
one path.  `file` is the filesystem's view of the path (`none` when the path
no longer exists).  `H` is the content hash (`get_file_hash`).  The steps
mirror the source: existence check, extension check, minimum-size check,
hash, dedup check, duration probe, conversion to a temporary waveform,
transcription, waveform cleanup, empty-transcript check, transcript file
write, database insert, notification.  There is no try/finally in the
source: when the whisper invocation raises, the exception escapes with the
waveform still present. -/
def process_audio_file (H : Bytes → String) (w : World) (o : Oracle) (st : St)
    (file : Option FileInfo) : RunResult :=
  match file with
  | none => ⟨st, [], .returned⟩
  | some f =>
    if supportedExts.contains (pyLower (pySuffix f.name)) = false then ⟨st, [], .returned⟩
    else if f.size < 1000 then ⟨st, [], .returned⟩
    else
      let file_hash := H f.content
      if is_already_transcribed st.db file_hash then ⟨st, [], .returned⟩
      else
        let duration := get_audio_duration o
        let wav_path := pyStem f.name ++ ".wav"
        let calls1 := [ToolCall.ffprobe f.path, ToolCall.ffmpeg f.path wav_path]
        let st1 : St :=
          { st with tempWavs :=
              if o.conv.outputWritten then addPath st.tempWavs wav_path
              else removePath st.tempWavs wav_path }
        if o.conv.outputWritten = false then ⟨st1, calls1, .returned⟩
        else
          let language := get_language_setting w
          let calls2 := calls1 ++ [ToolCall.whisper wav_path language]
          let finish := fun (transcript : String) =>
            let st2 : St := { st1 with tempWavs := removePath st1.tempWavs wav_path }
            if transcript = "" then ⟨st2, calls2, RunExit.returned⟩
            else
              let st3 : St :=
                { st2 with txtFiles := setTxt st2.txtFiles (pyStem f.name ++ ".txt") transcript }
              let ins := st3.db.insertTranscript f.name f.path file_hash transcript
                duration w.now w.now
              ⟨{ st3 with db := ins.1 },
                calls2 ++ [ToolCall.notify "Transcription Complete" (previewOf transcript)],
                RunExit.returned⟩
          match o.engine with
          | .raises => ⟨st1, calls2, .raised⟩
          | .wroteFile c => finish (pyStrip c)
          | .stdoutOnly s => finish (pyStrip s)

/-- Model of the transcript-file and row deletion in `delete_transcript`
(src/app.py): look up the row by id; when absent, nothing changes (404);
otherwise remove the transcript text file derived from the stored filename,
then delete the row. -/
def delete_transcript (st : St) (tid : Nat) : St :=
  match st.db.fetch tid with
  | none => st
  | some r =>
    { st with
      db := st.db.deleteRow tid,
      txtFiles := st.txtFiles.filter (fun q => q.1 ≠ pyStem r.filename ++ ".txt") }

/-- The in-memory state of `VoiceMemoHandler` (src/watcher.py): the
`pending_files` dict mapping a path to the time of its last event, as an
insertion-ordered association list with unique keys. -/
structure Handler where
  pending_files : List (String × Nat)
deriving Repr, DecidableEq

/-- Python dict assignment `m[k] = v`: update in place when the key exists,
else append. -/
def dictSet (m : List (String × Nat)) (k : String) (v : Nat) : List (String × Nat) :=
  if m.any (fun p => p.1 == k) then m.map (fun p => if p.1 == k then (k, v) else p)
  else m ++ [(k, v)]

/-- Model of `VoiceMemoHandler.on_created`: directory events are ignored;
otherwise the path's last-event time is set to now. -/
def on_created (h : Handler) (is_directory : Bool) (src_path : String) (now : Nat) : Handler :=
  if is_directory then h else ⟨dictSet h.pending_files src_path now⟩

/-- Model of `VoiceMemoHandler.on_modified`: identical to `on_created`. -/
def on_modified (h : Handler) (is_directory : Bool) (src_path : String) (now : Nat) : Handler :=
  if is_directory then h else ⟨dictSet h.pending_files src_path now⟩

/-- The quiescence window of `process_pending`: `now - last_modified > 3`. -/
def quiescenceWindow : Nat := 3

/-- The paths selected by one `process_pending` sweep at time `now`: those
whose last event is strictly more than the quiescence window ago, in dict
order.  (Nat subtraction matches the Python float comparison here: when
`now < last`, both `now - last > 3` tests are false.) -/
def pendingReady (m : List (String × Nat)) (now : Nat) : List String :=
  (m.filter (fun p => now - p.2 > quiescenceWindow)).map (fun p => p.1)

/-- The pending map after one `process_pending` sweep at time `now`: every
selected path has been deleted from the dict. -/
def pendingRemaining (m : List (String × Nat)) (now : Nat) : List (String × Nat) :=
  m.filter (fun p => ¬ (now - p.2 > quiescenceWindow))

/-- Per-path environment of a sweep: the filesystem's view of each path and
the external-tool behaviour of its run. -/
def Env := String → Option FileInfo × Oracle

/-- One iteration of the `for filepath in to_process` loop in
`process_pending`: run `process_audio_file` inside try/except, so a raised
exception is caught and logged and the loop continues; the state reached at
the point of the raise persists.  The log records each path with how its run
ended. -/
def pendingStep (H : Bytes → String) (w : World) (env : Env)
    (acc : St × List (String × RunExit)) (p : String) : St × List (String × RunExit) :=
  let r := process_audio_file H w (env p).2 acc.1 (env p).1
  (r.st, acc.2 ++ [(p, r.exit)])

/-- Model of `VoiceMemoHandler.process_pending` (src/watcher.py lines
227-242): select the quiescent paths, remove them from the pending dict,
then process each in order with per-file exception catching.  Returns the
new handler state, the final pipeline state, and the processing log. -/
def process_pending (H : Bytes → String) (w : World) (env : Env) (h : Handler)
    (st : St) (now : Nat) : Handler × St × List (String × RunExit) :=
  let to_process := pendingReady h.pending_files now
  let res := to_process.foldl (pendingStep H w env) (st, [])
  (⟨pendingRemaining h.pending_files now⟩, res.1, res.2)

/-- Characters accepted by the regex class `\d` (ASCII digits). -/
def isDigitChar (c : Char) : Bool := '0' ≤ c && c ≤ '9'

/-- Characters accepted by the regex class `\s`. -/
def isSpaceChar (c : Char) : Bool := pyIsSpace c

/-- Take exactly `n` digit characters from the front of a list, returning
them and the rest, or `none` when fewer than `n` digits lead. -/
def takeDigits : List Char → Nat → Option (List Char × List Char)
  | cs, 0 => some ([], cs)
  | [], _ + 1 => none
  | c :: cs, n + 1 =>
    if isDigitChar c then
      match takeDigits cs n with
      | some (ds, rest) => some (c :: ds, rest)
      | none => none
    else none

/-- Numeric value of a digit string. -/
def digitsToNat (ds : List Char) : Nat :=
  ds.foldl (fun acc c => acc * 10 + (c.toNat - '0'.toNat)) 0

/-- Day count of a month, with the Gregorian leap rule, as enforced by
`datetime`. -/
def daysInMonth (y m : Nat) : Nat :=
  if m == 2 then
    if (y % 4 == 0 && y % 100 != 0) || y % 400 == 0 then 29 else 28
  else if m == 4 || m == 6 || m == 9 || m == 11 then 30
  else 31

/-- Validity of a %Y%m%d%H%M%S field vector, as `datetime.strptime` checks it
(year at least MINYEAR = 1, month 1-12, day within the month, hour below 24,
minute and second below 60). -/
def validDateTime (y mo d h mi s : Nat) : Bool :=
  1 ≤ y && 1 ≤ mo && mo ≤ 12 && 1 ≤ d && d ≤ daysInMonth y mo &&
    h ≤ 23 && mi ≤ 59 && s ≤ 59

/-- Encode a datetime as the number yyyymmddhhmmss; for valid datetimes the
numeric order agrees with chronological order. -/
def encodeDateTime (y mo d h mi s : Nat) : Nat :=
  ((((y * 100 + mo) * 100 + d) * 100 + h) * 100 + mi) * 100 + s

/-- Model of `parse_date_from_filename` (src/watcher.py lines 245-255):
match the anchored regex `(\d\x7b8\x7d)\s*(\d\x7b6\x7d)` against the file
name, concatenate the two digit groups and parse them with
`datetime.strptime(_, "%Y%m%d%H%M%S")`; an unmatched regex or an invalid
datetime yields `None`. -/
def parse_date_from_filename (filename : String) : Option Nat :=
  match takeDigits filename.toList 8 with
  | none => none
  | some (d8, rest) =>
    match takeDigits (rest.dropWhile isSpaceChar) 6 with
    | none => none
    | some (d6, _) =>
      let y := digitsToNat (d8.take 4)
      let mo := digitsToNat ((d8.drop 4).take 2)
      let d := digitsToNat (d8.drop 6)
      let h := digitsToNat (d6.take 2)
      let mi := digitsToNat ((d6.drop 2).take 2)
      let s := digitsToNat (d6.drop 4)
      if validDateTime y mo d h mi s then some (encodeDateTime y mo d h mi s)
      else none

/-- Per-file environment of a backfill scan (only the tool oracle: the file
itself is enumerated from the directory listing). -/
def ScanEnv := String → Oracle

/-- The shared per-candidate action of both backfill scanners (src/watcher.py
lines 280-285 and 304-307): hash the file, consult the dedup check, and run
the same `process_audio_file` as live events when the content is new; the
surrounding try/except catches a raised exception.  The log records the file
as checked either way. -/
def backfill_check (H : Bytes → String) (w : World) (env : ScanEnv)
    (acc : St × List String) (f : FileInfo) : St × List String :=
  let file_hash := H f.content
  if is_already_transcribed acc.1.db file_hash then (acc.1, acc.2 ++ [f.name])
  else
    let r := process_audio_file H w (env f.name) acc.1 (some f)
    (r.st, acc.2 ++ [f.name])

/-- One iteration of the loop in `process_existing_files` (src/watcher.py
lines 271-287): only `*.m4a` files are enumerated by the glob; a file whose
name parses to a datetime strictly before the cutoff is skipped (`continue`);
every other enumerated file goes through `backfill_check`. -/
def existing_step (H : Bytes → String) (w : World) (env : ScanEnv) (cutoff : Nat)
    (acc : St × List String) (f : FileInfo) : St × List String :=
  if pySuffix f.name ≠ ".m4a" then acc
  else
    match parse_date_from_filename f.name with
    | some d => if d < cutoff then acc else backfill_check H w env acc f
    | none => backfill_check H w env acc f

/-- Model of `process_existing_files` (src/watcher.py lines 258-289): iterate
over the files of the watched directory; the cutoff is
`datetime.now() - timedelta(days=days)`, passed here already encoded. -/
def process_existing_files (H : Bytes → String) (w : World) (env : ScanEnv)
    (st : St) (files : List FileInfo) (cutoff : Nat) : St × List String :=
  files.foldl (existing_step H w env cutoff) (st, [])

/-- One iteration of the outer loop of `process_input_folder` (src/watcher.py
lines 301-309): all input-folder files matching one glob pattern go through
`backfill_check`, with no age filter. -/
def input_step (H : Bytes → String) (w : World) (env : ScanEnv) (files : List FileInfo)
    (acc : St × List String) (ext : String) : St × List String :=
  (files.filter (fun f => pySuffix f.name = ext)).foldl (backfill_check H w env) acc

/-- Model of `process_input_folder` (src/watcher.py lines 292-311): one outer
iteration per supported glob pattern. -/
def process_input_folder (H : Bytes → String) (w : World) (env : ScanEnv)
    (st : St) (files : List FileInfo) : St × List String :=
  supportedExts.foldl (input_step H w env files) (st, [])

/-- The states of the Record Store (with its artifact surroundings) reachable
from a fresh installation by the operations of the repository: per-file
pipeline runs (live events), orchestrator sweeps, both backfill scanners, and
the viewer's delete. -/
inductive Reachable (H : Bytes → String) : St → Prop where
  | init : Reachable H St.init
  | process (w : World) (o : Oracle) (file : Option FileInfo) {st : St} :
      Reachable H st → Reachable H (process_audio_file H w o st file).st
  | sweep (w : World) (env : Env) (h : Handler) (now : Nat) {st : St} :
      Reachable H st → Reachable H (process_pending H w env h st now).2.1
  | backfillExisting (w : World) (env : ScanEnv) (files : List FileInfo) (cutoff : Nat)
      {st : St} : Reachable H st →
      Reachable H (process_existing_files H w env st files cutoff).1
  | backfillInput (w : World) (env : ScanEnv) (files : List FileInfo) {st : St} :
      Reachable H st → Reachable H (process_input_folder H w env st files).1
  | del (tid : Nat) {st : St} : Reachable H st → Reachable H (delete_transcript st tid)

/-- Dedup invariant of the Record Store: no two rows share a `file_hash`. -/
def hashesUnique (db : DB) : Prop :=
  db.records.Pairwise (fun a b => a.file_hash ≠ b.file_hash)

theorem foldl_preserves {α : Type _} {β : Type _} {P : α → Prop} {step : α → β → α}
    (hstep : ∀ a b, P a → P (step a b)) :
    ∀ (l : List β) (a : α), P a → P (l.foldl step a) := by
  intro l
  induction l with
  | nil => exact fun a ha => ha
  | cons b t ih => exact fun a ha => ih (step a b) (hstep a b ha)

/-- Effect of one pipeline run on the database: either it is untouched, or
exactly one row was appended through `DB.insertTranscript`, and only after
the dedup check came back negative. -/
theorem process_db_cases (H : Bytes → String) (w : World) (o : Oracle) (st : St)
    (file : Option FileInfo) :
    (process_audio_file H w o st file).st.db = st.db ∨
    ∃ f t, file = some f ∧ is_already_transcribed st.db (H f.content) = false ∧
      (process_audio_file H w o st file).st.db =
        (st.db.insertTranscript f.name f.path (H f.content) t
          (get_audio_duration o) w.now w.now).1 := by
  cases file with
  | none => exact Or.inl rfl
  | some f =>
    simp only [process_audio_file]
    split
    · exact Or.inl rfl
    split
    · exact Or.inl rfl
    split
    · exact Or.inl rfl
    next hdedup =>
    split
    · exact Or.inl rfl
    split
    · exact Or.inl rfl
    · split
      · exact Or.inl rfl
      · exact Or.inr ⟨f, _, rfl, by simpa using hdedup, rfl⟩
    · split
      · exact Or.inl rfl
      · exact Or.inr ⟨f, _, rfl, by simpa using hdedup, rfl⟩

theorem hashesUnique_insertTranscript {db : DB} {fh : String}
    (h : hashesUnique db) (hfresh : is_already_transcribed db fh = false)
    (fn op t : String) (dur : Int) (ta now : Nat) :
    hashesUnique (db.insertTranscript fn op fh t dur ta now).1 := by
  unfold hashesUnique DB.insertTranscript
  rw [List.pairwise_append]
  refine ⟨h, List.pairwise_singleton _ _, ?_⟩
  intro a ha b hb
  have hb' : b = ⟨db.nextId, fn, op, fh, some t, dur, none, now, some ta⟩ := by
    simpa using hb
  subst hb'
  intro he
  have : db.records.any (fun r => r.file_hash == fh) = true :=
    List.any_eq_true.mpr ⟨a, ha, by simp [he]⟩
  rw [is_already_transcribed] at hfresh
  simp [this] at hfresh

theorem hashesUnique_process (H : Bytes → String) (w : World) (o : Oracle)
    {st : St} (file : Option FileInfo) (h : hashesUnique st.db) :
    hashesUnique (process_audio_file H w o st file).st.db := by
  rcases process_db_cases H w o st file with heq | ⟨f, t, _, hfresh, heq⟩
  · rw [heq]; exact h
  · rw [heq]; exact hashesUnique_insertTranscript h hfresh _ _ _ _ _ _

theorem hashesUnique_backfill_check (H : Bytes → String) (w : World) (env : ScanEnv)
    (acc : St × List String) (f : FileInfo) (h : hashesUnique acc.1.db) :
    hashesUnique (backfill_check H w env acc f).1.db := by
  unfold backfill_check
  dsimp only
  split
  · exact h
  · exact hashesUnique_process H w (env f.name) (some f) h

/-- The dedup invariant holds at every reachable state of the Record Store. -/
theorem hashesUnique_reachable (H : Bytes → String) {st : St}
    (hr : Reachable H st) : hashesUnique st.db := by
  induction hr with
  | init => exact List.Pairwise.nil
  | process w o file _ ih => exact hashesUnique_process H w o file ih
  | sweep w env h now _ ih =>
    unfold process_pending
    exact foldl_preserves (P := fun acc : St × List (String × RunExit) => hashesUnique acc.1.db)
      (fun acc p ha => hashesUnique_process H w (env p).2 (env p).1 ha) _ (_, []) ih
  | backfillExisting w env files cutoff _ ih =>
    unfold process_existing_files
    refine foldl_preserves (P := fun acc : St × List String => hashesUnique acc.1.db)
      (fun acc f ha => ?_) files (_, []) ih
    unfold existing_step
    split
    · exact ha
    split
    · split
      · exact ha
      · exact hashesUnique_backfill_check H w env acc f ha
    · exact hashesUnique_backfill_check H w env acc f ha
  | backfillInput w env files _ ih =>
    unfold process_input_folder
    exact foldl_preserves (P := fun acc : St × List String => hashesUnique acc.1.db)
      (fun acc ext ha =>
        foldl_preserves (fun a f hf => hashesUnique_backfill_check H w env a f hf) _ acc ha)
      supportedExts (_, []) ih
  | del tid _ ih =>
    unfold delete_transcript
    split
    · exact ih
    · exact List.Pairwise.sublist (List.filter_sublist _) ih

/-- When the content hash is already in the store, a pipeline run is a pure
skip: no state change, no tool invocation, a normal return.  (The run may
also leave early for other reasons; every such early exit has the same
shape.) -/
theorem process_noop_of_transcribed (H : Bytes → String) (w : World) (o : Oracle)
    (st : St) (f : FileInfo)
    (h : is_already_transcribed st.db (H f.content) = true) :
    process_audio_file H w o st (some f) = ⟨st, [], .returned⟩ := by
  simp only [process_audio_file, h]
  split
  · rfl
  split
  · rfl
  rfl

theorem countP_hash_eq_one {l : List Record} {hsh : String}
    (h : l.Pairwise (fun a b => a.file_hash ≠ b.file_hash))
    {r : Record} (hr : r ∈ l) (hh : r.file_hash = hsh) :
    l.countP (fun x => x.file_hash == hsh) = 1 := by
  induction l with
  | nil => cases hr
  | cons a t ih =>
    rw [List.countP_cons]
    rcases List.mem_cons.mp hr with rfl | hmem
    · have hz : t.countP (fun x => x.file_hash == hsh) = 0 := by
        rw [List.countP_eq_zero]
        intro x hx
        simp only [beq_iff_eq]
        rw [← hh]
        exact fun he => (List.pairwise_cons.mp h).1 x hx he.symm
      simp [hz, hh]
    · have hne : ¬ a.file_hash = hsh := by
        rw [← hh]
        exact (List.pairwise_cons.mp h).1 r hmem
      rw [ih (List.pairwise_cons.mp h).2 hmem]
      simp [hne]

/-- Claim C1.  Dedup invariant and idempotence: every state of the Record
Store reachable by the repository's operations has pairwise-distinct
`file_hash` values, and after a pipeline run on a file leaves a record for
its content in the store, running the pipeline again on a file with the very
same content (under any name and path, with any tool behaviour) changes
nothing and leaves exactly one record carrying that content's hash. -/
theorem dedup_invariant_and_idempotence (H : Bytes → String) {st : St}
    (hr : Reachable H st) : hashesUnique st.db ∧
    ∀ (w1 : World) (o1 : Oracle) (f1 : FileInfo) (w2 : World) (o2 : Oracle) (f2 : FileInfo),
      f1.content = f2.content →
      (∃ r ∈ (process_audio_file H w1 o1 st (some f1)).st.db.records,
        r.file_hash = H f1.content) →
      (process_audio_file H w2 o2 (process_audio_file H w1 o1 st (some f1)).st (some f2)).st
          = (process_audio_file H w1 o1 st (some f1)).st ∧
        ((process_audio_file H w2 o2 (process_audio_file H w1 o1 st (some f1)).st
            (some f2)).st.db.records.countP
          (fun x => x.file_hash == H f1.content)) = 1 := by
  refine ⟨hashesUnique_reachable H hr, ?_⟩
  intro w1 o1 f1 w2 o2 f2 hc ⟨r, hrmem, hrh⟩
  have hinv1 : hashesUnique (process_audio_file H w1 o1 st (some f1)).st.db :=
    hashesUnique_reachable H (Reachable.process w1 o1 (some f1) hr)
  have halready :
      is_already_transcribed (process_audio_file H w1 o1 st (some f1)).st.db (H f2.content)
        = true := by
    rw [is_already_transcribed, List.any_eq_true]
    exact ⟨r, hrmem, by simp [hrh, hc]⟩
  have hnoop := process_noop_of_transcribed H w2 o2 _ f2 halready
  rw [hnoop]
  exact ⟨rfl, countP_hash_eq_one hinv1 hrmem hrh⟩

/-- Witness for C1 at a concrete reachable state: a store holding one record
for content `[7]`, reached by one successful pipeline run from a fresh
installation; a second run on a differently named file with the same bytes
changes nothing and the store holds exactly one record for that hash. -/
theorem dedup_invariant_and_idempotence_witness :
    (process_audio_file (fun _ => "h7") ⟨none, 9⟩ ⟨.ok 5, ⟨0, true⟩, .wroteFile "hello"⟩
        (process_audio_file (fun _ => "h7") ⟨none, 8⟩ ⟨.ok 5, ⟨0, true⟩, .wroteFile "hello"⟩
          St.init (some ⟨"a.m4a", "/vm/a.m4a", 1500, [7]⟩)).st
        (some ⟨"b.m4a", "/vm/b.m4a", 2000, [7]⟩)).st.db.records.countP
      (fun x => x.file_hash == "h7") = 1 := by
  have h := (dedup_invariant_and_idempotence (fun _ => "h7") Reachable.init).2
    ⟨none, 8⟩ ⟨.ok 5, ⟨0, true⟩, .wroteFile "hello"⟩ ⟨"a.m4a", "/vm/a.m4a", 1500, [7]⟩
    ⟨none, 9⟩ ⟨.ok 5, ⟨0, true⟩, .wroteFile "hello"⟩ ⟨"b.m4a", "/vm/b.m4a", 2000, [7]⟩
    rfl (by decide)
  exact h.2

/-- Claim C10.  A path that no longer exists on the filesystem at processing
time makes the pipeline return silently: the state is untouched, no external
tool is invoked, and the run returns normally rather than raising. -/
theorem missing_file_noop (H : Bytes → String) (w : World) (o : Oracle) (st : St) :
    process_audio_file H w o st none = ⟨st, [], .returned⟩ := rfl

theorem pendingStep_log (H : Bytes → String) (w : World) (env : Env) :
    ∀ (l : List String) (st : St) (log : List (String × RunExit)),
      ((l.foldl (pendingStep H w env) (st, log)).2).map Prod.fst = log.map Prod.fst ++ l := by
  intro l
  induction l with
  | nil => intro st log; simp
  | cons p t ih =>
    intro st log
    rw [List.foldl_cons, pendingStep, ih]
    simp

theorem pendingStep_state (H : Bytes → String) (w : World) (env : Env) :
    ∀ (l : List String) (st : St) (log : List (String × RunExit)),
      (l.foldl (pendingStep H w env) (st, log)).1 =
        l.foldl (fun s p => (process_audio_file H w (env p).2 s (env p).1).st) st := by
  intro l
  induction l with
  | nil => intro st log; rfl
  | cons p t ih =>
    intro st log
    rw [List.foldl_cons, List.foldl_cons, pendingStep, ih]

/-- Claim C5.  Per-file error isolation in the orchestrator sweep: whatever
the per-path outcomes are — including runs that raise — the sweep's log
covers exactly the drained ready paths in order, and the final state is the
fold of the per-file pipeline over the whole ready list; no path's failure
truncates the processing of the paths after it. -/
theorem per_file_isolation (H : Bytes → String) (w : World) (env : Env)
    (h : Handler) (st : St) (now : Nat) :
    ((process_pending H w env h st now).2.2).map Prod.fst =
        pendingReady h.pending_files now ∧
      (process_pending H w env h st now).2.1 =
        (pendingReady h.pending_files now).foldl
          (fun s p => (process_audio_file H w (env p).2 s (env p).1).st) st ∧
      (process_pending H w env h st now).1.pending_files =
        pendingRemaining h.pending_files now := by
  refine ⟨?_, ?_, rfl⟩
  · rw [process_pending]
    simpa using pendingStep_log H w env (pendingReady h.pending_files now) st []
  · rw [process_pending]
    exact pendingStep_state H w env (pendingReady h.pending_files now) st []

/-- Refutation of claim C2 as stated: a concrete run in which conversion
succeeds and the transcription invocation raises leaves the temporary
waveform `a.wav` behind — cleanup is not guaranteed on the raising path,
because `process_audio_file` has no try/finally around `transcribe_audio`. -/
theorem cleanup_guarantee_cex :
    (process_audio_file (fun _ => "h") ⟨none, 100⟩ ⟨.ok 5, ⟨0, true⟩, .raises⟩ St.init
        (some ⟨"a.m4a", "/vm/a.m4a", 1500, [1]⟩)).st.tempWavs = ["a.wav"] ∧
      (process_audio_file (fun _ => "h") ⟨none, 100⟩ ⟨.ok 5, ⟨0, true⟩, .raises⟩ St.init
        (some ⟨"a.m4a", "/vm/a.m4a", 1500, [1]⟩)).exit = .raised := by
  decide

/-- Claim C2 as amended.  Cleanup guarantee on every run in which the
transcription invocation returns (success or failure): starting with no
temporary waveform present, none is present after the run; the guarantee
excludes the raising path refuted above. -/
theorem cleanup_guarantee (H : Bytes → String) (w : World) (o : Oracle) (st : St)
    (file : Option FileInfo) (hw : st.tempWavs = [])
    (he : o.engine ≠ .raises) :
    (process_audio_file H w o st file).st.tempWavs = [] := by
  cases file with
  | none => exact hw
  | some f =>
    simp only [process_audio_file]
    split
    · exact hw
    split
    · exact hw
    split
    · exact hw
    split
    next hcv =>
      simp [hw, removePath, hcv]
    next hcv =>
      simp only [Bool.not_eq_false] at hcv
      split
      next heng => exact absurd heng he
      · split
        · simp [hw, hcv, removePath, addPath]
        · simp [hw, hcv, removePath, addPath]
      · split
        · simp [hw, hcv, removePath, addPath]
        · simp [hw, hcv, removePath, addPath]

/-- Witness for C2 as amended: the run of the refutation above, with the
engine returning an empty stdout instead of raising, leaves no waveform. -/
theorem cleanup_guarantee_witness :
    (process_audio_file (fun _ => "h") ⟨none, 100⟩ ⟨.ok 5, ⟨0, true⟩, .stdoutOnly ""⟩ St.init
      (some ⟨"a.m4a", "/vm/a.m4a", 1500, [1]⟩)).st.tempWavs = [] :=
  cleanup_guarantee (fun _ => "h") ⟨none, 100⟩ ⟨.ok 5, ⟨0, true⟩, .stdoutOnly ""⟩ St.init
    (some ⟨"a.m4a", "/vm/a.m4a", 1500, [1]⟩) rfl (by decide)

/-- Refutation of claim C4 as stated: `convert_to_wav` returns
`output_path.exists()` and never inspects the converter's exit status, so a
run whose converter exits with code 1 but still leaves an output file is not
treated as a conversion failure — the pipeline goes on to transcribe and
inserts a record. -/
theorem conversion_failure_cex :
    (process_audio_file (fun _ => "h") ⟨none, 100⟩ ⟨.ok 5, ⟨1, true⟩, .wroteFile "hello"⟩
        St.init (some ⟨"a.m4a", "/vm/a.m4a", 1500, [1]⟩)).st.db.records.length = 1 ∧
      ToolCall.whisper "a.wav" "auto" ∈
        (process_audio_file (fun _ => "h") ⟨none, 100⟩ ⟨.ok 5, ⟨1, true⟩, .wroteFile "hello"⟩
          St.init (some ⟨"a.m4a", "/vm/a.m4a", 1500, [1]⟩)).calls := by
  decide

/-- Claim C4 as amended.  For a file that reaches the conversion step, the
step is a conversion failure if and only if the output file is missing after
the converter runs — the exit status is ignored.  On the failure path the
run aborts with the database untouched, no transcription invoked, a normal
return, and no temporary artifact present (the state records the output's
absence); when the output exists the pipeline always proceeds to the
transcription engine. -/
theorem conversion_failure_handling (H : Bytes → String) (w : World) (o : Oracle)
    (st : St) (f : FileInfo)
    (hsup : supportedExts.contains (pyLower (pySuffix f.name)) = true)
    (hsz : ¬ f.size < 1000)
    (hdedup : is_already_transcribed st.db (H f.content) = false)
    (hw : st.tempWavs = []) :
    (o.conv.outputWritten = false →
      process_audio_file H w o st (some f) =
        ⟨⟨st.db, [], st.txtFiles⟩,
          [ToolCall.ffprobe f.path, ToolCall.ffmpeg f.path (pyStem f.name ++ ".wav")],
          .returned⟩) ∧
      (o.conv.outputWritten = true →
        ToolCall.whisper (pyStem f.name ++ ".wav") (get_language_setting w) ∈
          (process_audio_file H w o st (some f)).calls) := by
  have hmem : pyLower (pySuffix f.name) ∈ supportedExts := by simpa using hsup
  constructor
  · intro hcv
    simp [process_audio_file, hmem, hsz, hdedup, hcv, hw, removePath]
  · intro hcv
    simp only [process_audio_file, hsup, hsz, hdedup, hcv]
    simp only [Bool.false_eq_true, if_false, Bool.true_eq_false, if_true, if_false]
    split <;> simp
    all_goals split <;> simp

/-- Witness for C4 as amended: a concrete run whose converter exits 0 but
writes no output aborts with the early-return shape, and a concrete run
whose converter writes its output proceeds to the whisper invocation. -/
theorem conversion_failure_handling_witness :
    process_audio_file (fun _ => "h") ⟨none, 100⟩ ⟨.ok 5, ⟨0, false⟩, .wroteFile "x"⟩
        St.init (some ⟨"a.m4a", "/vm/a.m4a", 1500, [1]⟩) =
      ⟨⟨DB.empty, [], []⟩, [ToolCall.ffprobe "/vm/a.m4a", ToolCall.ffmpeg "/vm/a.m4a" "a.wav"],
        .returned⟩ :=
  (conversion_failure_handling (fun _ => "h") ⟨none, 100⟩ ⟨.ok 5, ⟨0, false⟩, .wroteFile "x"⟩
    St.init ⟨"a.m4a", "/vm/a.m4a", 1500, [1]⟩ (by decide) (by decide) (by decide) rfl).1 rfl

/-- Claim C8.  When the transcription step returns an empty transcript
(whether the engine's output artifact is empty or only empty standard output
is available), no record is inserted into the store and the run returns
normally — not a hard failure — so a later event for the same content is not
blocked by dedup. -/
theorem empty_transcript_no_insert (H : Bytes → String) (w : World) (o : Oracle)
    (st : St) (file : Option FileInfo)
    (h : (∃ c, o.engine = .wroteFile c ∧ pyStrip c = "") ∨
      (∃ s, o.engine = .stdoutOnly s ∧ pyStrip s = "")) :
    (process_audio_file H w o st file).st.db = st.db ∧
      (process_audio_file H w o st file).exit = .returned := by
  cases file with
  | none => exact ⟨rfl, rfl⟩
  | some f =>
    simp only [process_audio_file]
    split
    · exact ⟨rfl, rfl⟩
    split
    · exact ⟨rfl, rfl⟩
    split
    · exact ⟨rfl, rfl⟩
    split
    · exact ⟨rfl, rfl⟩
    split
    next heng =>
      rcases h with ⟨c, hc, _⟩ | ⟨s, hs, _⟩ <;> rw [heng] at * <;> simp_all
    next c heng =>
      rcases h with ⟨c', hc, hstrip⟩ | ⟨s, hs, _⟩
      · rw [heng] at hc
        cases hc
        simp [hstrip]
      · rw [heng] at hs; cases hs
    next s heng =>
      rcases h with ⟨c, hc, _⟩ | ⟨s', hs, hstrip⟩
      · rw [heng] at hc; cases hc
      · rw [heng] at hs
        cases hs
        simp [hstrip]

/-- Witness for C8: a concrete run whose engine writes a whitespace-only
transcript file inserts nothing and returns normally. -/
theorem empty_transcript_no_insert_witness :
    (process_audio_file (fun _ => "h") ⟨none, 100⟩ ⟨.ok 5, ⟨0, true⟩, .wroteFile "  \n"⟩
        St.init (some ⟨"a.m4a", "/vm/a.m4a", 1500, [1]⟩)).st.db = St.init.db ∧
      (process_audio_file (fun _ => "h") ⟨none, 100⟩ ⟨.ok 5, ⟨0, true⟩, .wroteFile "  \n"⟩
        St.init (some ⟨"a.m4a", "/vm/a.m4a", 1500, [1]⟩)).exit = .returned :=
  empty_transcript_no_insert (fun _ => "h") ⟨none, 100⟩ ⟨.ok 5, ⟨0, true⟩, .wroteFile "  \n"⟩
    St.init (some ⟨"a.m4a", "/vm/a.m4a", 1500, [1]⟩) (Or.inl ⟨"  \n", rfl, by decide⟩)

/-- Refutation of claim C6 as stated: in a concrete successful run with the
persisted language preference set to `sv`, the engine is invoked with `sv`,
yet the created record's `language` field is NULL — the INSERT statement in
`process_audio_file` omits the `language` column, so the language used is
never stored. -/
theorem language_recording_cex :
    ToolCall.whisper "a.wav" "sv" ∈
        (process_audio_file (fun _ => "h") ⟨some "sv", 100⟩ ⟨.ok 5, ⟨0, true⟩, .wroteFile "hej"⟩
          St.init (some ⟨"a.m4a", "/vm/a.m4a", 1500, [1]⟩)).calls ∧
      ((process_audio_file (fun _ => "h") ⟨some "sv", 100⟩ ⟨.ok 5, ⟨0, true⟩, .wroteFile "hej"⟩
          St.init (some ⟨"a.m4a", "/vm/a.m4a", 1500, [1]⟩)).st.db.records.map
        (fun r => r.language)) = [none] := by
  decide

/-- Claim C6 as amended.  The language preference is read fresh at
transcription time and passed to the engine — every whisper invocation in a
run's trace carries exactly the current setting (or `"auto"` when absent) —
but the created record's `language` field is NULL, not the code used: the
INSERT omits the column. -/
theorem language_recording (H : Bytes → String) (w : World) (o : Oracle)
    (st : St) (file : Option FileInfo) :
    (∀ wav lang, ToolCall.whisper wav lang ∈ (process_audio_file H w o st file).calls →
        lang = get_language_setting w) ∧
      ∀ r ∈ (process_audio_file H w o st file).st.db.records,
        r ∉ st.db.records → r.language = none := by
  constructor
  · intro wav lang hm
    cases file with
    | none => cases hm
    | some f =>
      simp only [process_audio_file] at hm
      split at hm
      · cases hm
      split at hm
      · cases hm
      split at hm
      · cases hm
      split at hm
      · simp at hm
      split at hm
      · simp at hm
        tauto
      · split at hm <;> simp at hm <;> tauto
      · split at hm <;> simp at hm <;> tauto
  · intro r hr hn
    rcases process_db_cases H w o st file with heq | ⟨f, t, _, _, heq⟩
    · rw [heq] at hr
      exact absurd hr hn
    · rw [heq] at hr
      simp [DB.insertTranscript] at hr
      rcases hr with hr | hr
      · exact absurd hr hn
      · rw [hr]

/-- Witness for C6 as amended: the unique record created by a concrete
successful run carries a NULL language, and its whisper invocation carried
the current setting. -/
theorem language_recording_witness :
    "sv" = get_language_setting ⟨some "sv", 100⟩ := by
  have h := (language_recording (fun _ => "h") ⟨some "sv", 100⟩
    ⟨.ok 5, ⟨0, true⟩, .wroteFile "hej"⟩ St.init
    (some ⟨"a.m4a", "/vm/a.m4a", 1500, [1]⟩)).1 "a.wav" "sv"
  exact h (by decide)

/-- Claim C7.  Store round-trip: inserting a row through the pipeline's
INSERT and fetching the assigned id with the viewer's SELECT returns a row
equal in every field to the row as inserted (filename, original path,
content hash, transcript, duration, language — NULL, as the INSERT leaves
it — creation time and transcription time), provided the ids already in the
table are below the AUTOINCREMENT counter, as AUTOINCREMENT guarantees. -/
theorem insert_fetch_roundtrip (db : DB) (fn op fh t : String) (dur : Int)
    (ta now : Nat) (hid : ∀ r ∈ db.records, r.id < db.nextId) :
    (db.insertTranscript fn op fh t dur ta now).1.fetch
        (db.insertTranscript fn op fh t dur ta now).2 =
      some ⟨db.nextId, fn, op, fh, some t, dur, none, now, some ta⟩ := by
  unfold DB.insertTranscript DB.fetch
  rw [List.find?_append]
  have hnone : db.records.find? (fun r => r.id == db.nextId) = none := by
    rw [List.find?_eq_none]
    intro r hr
    simpa using Nat.ne_of_lt (hid r hr)
  rw [hnone]
  simp

/-- Witness for C7: round-trip of a concrete row through an empty table. -/
theorem insert_fetch_roundtrip_witness :
    (DB.empty.insertTranscript "a.m4a" "/vm/a.m4a" "h" "hello" 5 9 9).1.fetch
        (DB.empty.insertTranscript "a.m4a" "/vm/a.m4a" "h" "hello" 5 9 9).2 =
      some ⟨1, "a.m4a", "/vm/a.m4a", "h", some "hello", 5, none, 9, some 9⟩ :=
  insert_fetch_roundtrip DB.empty "a.m4a" "/vm/a.m4a" "h" "hello" 5 9 9
    (by intro r hr; cases hr)

theorem lookup_map_update {m : List (String × Nat)} {k : String} (v : Nat)
    (hany : m.any (fun q => q.1 == k) = true) :
    (m.map (fun q => if q.1 == k then (k, v) else q)).lookup k = some v := by
  induction m with
  | nil => simp at hany
  | cons a t ih =>
    obtain ⟨a1, a2⟩ := a
    rw [List.map_cons]
    by_cases hk : (a1 == k) = true
    · rw [if_pos hk]
      simp [List.lookup]
    · rw [if_neg hk]
      have hany' : t.any (fun q => q.1 == k) = true := by
        rcases List.any_eq_true.mp hany with ⟨q, hq, hqk⟩
        rcases List.mem_cons.mp hq with rfl | hq'
        · exact absurd hqk hk
        · exact List.any_eq_true.mpr ⟨q, hq', hqk⟩
      have hk2 : (k == a1) = false := by
        rw [beq_eq_false_iff_ne]
        intro he
        exact hk (beq_iff_eq.mpr he.symm)
      simp only [List.lookup, hk2]
      exact ih hany'

theorem lookup_append_fresh {m : List (String × Nat)} {k : String} (v : Nat)
    (hnone : m.any (fun q => q.1 == k) = false) :
    (m ++ [(k, v)]).lookup k = some v := by
  induction m with
  | nil => simp [List.lookup]
  | cons a t ih =>
    obtain ⟨a1, a2⟩ := a
    simp only [List.any_cons, Bool.or_eq_false_iff] at hnone
    have hk2 : (k == a1) = false := by
      rw [beq_eq_false_iff_ne]
      intro he
      have h1 : (a1 == k) = false := hnone.1
      rw [beq_eq_false_iff_ne] at h1
      exact h1 he.symm
    simp only [List.cons_append, List.lookup, hk2]
    exact ih hnone.2

/-- Python dict assignment stores the assigned value under the key. -/
theorem dictSet_lookup (m : List (String × Nat)) (k : String) (v : Nat) :
    (dictSet m k v).lookup k = some v := by
  unfold dictSet
  split
  next hany => exact lookup_map_update v hany
  next hany => exact lookup_append_fresh v (Bool.eq_false_iff.mpr hany)

theorem key_unique {m : List (String × Nat)} {p : String} {t : Nat}
    (hnd : (m.map Prod.fst).Nodup) (h1 : (p, t) ∈ m) :
    ∀ e ∈ m, e.1 = p → e = (p, t) := by
  induction m with
  | nil => cases h1
  | cons a l ih =>
    rw [List.map_cons, List.nodup_cons] at hnd
    intro e he hk
    rcases List.mem_cons.mp h1 with h1a | h1l
    · rcases List.mem_cons.mp he with rfl | hel
      · exact h1a.symm
      · exfalso
        apply hnd.1
        rw [← h1a, hk.symm]
        exact List.mem_map.mpr ⟨e, hel, rfl⟩
    · rcases List.mem_cons.mp he with rfl | hel
      · exfalso
        apply hnd.1
        rw [hk]
        exact List.mem_map.mpr ⟨(p, t), h1l, rfl⟩
      · exact ih hnd.2 h1l e hel hk

/-- Refutation of claim C3 as stated: a path last seen at time 0 is not
promoted by a sweep at time `lastEvent + quiescenceWindow` — the comparison
in `process_pending` is strict — and is promoted by the first sweep strictly
later. -/
theorem debounce_correctness_cex :
    pendingReady [("a.m4a", 0)] (0 + quiescenceWindow) = [] ∧
      pendingReady [("a.m4a", 0)] (0 + quiescenceWindow + 1) = ["a.m4a"] := by
  decide

/-- Claim C3 as amended.  Debounce behaviour for a pending path `p` with
last-event time `t` (in a pending map with unique keys): (i) any further
event for `p` resets its recorded time to the event time; (ii) a sweep at
time `now` promotes `p` exactly when `now - t` strictly exceeds the
quiescence window, so the promotion happens at the first sweep strictly
after `t + quiescenceWindow`, not at `t + quiescenceWindow` itself; (iii) a
sweep promotes no path twice; (iv) once promoted, `p` has left the pending
map and no later sweep promotes it again without a new event. -/
theorem debounce_correctness (m : List (String × Nat)) (p : String) (t e now : Nat)
    (hnd : (m.map Prod.fst).Nodup) (hmem : (p, t) ∈ m) :
    ((on_modified ⟨m⟩ false p e).pending_files.lookup p = some e) ∧
      (p ∈ pendingReady m now ↔ now - t > quiescenceWindow) ∧
      (pendingReady m now).Nodup ∧
      (now - t > quiescenceWindow →
        ∀ now' : Nat, p ∉ pendingReady (pendingRemaining m now) now') := by
  refine ⟨dictSet_lookup m p e, ?_, ?_, ?_⟩
  · constructor
    · intro hp
      rcases List.mem_map.mp hp with ⟨q, hq, hq1⟩
      rcases List.mem_filter.mp hq with ⟨hqm, hqc⟩
      have := key_unique hnd hmem q hqm hq1
      rw [this] at hqc
      simpa using hqc
    · intro hgt
      refine List.mem_map.mpr ⟨(p, t), List.mem_filter.mpr ⟨hmem, by simpa using hgt⟩, rfl⟩
  · exact ((List.filter_sublist m).map Prod.fst).nodup hnd
  · intro hgt now' hp
    rcases List.mem_map.mp hp with ⟨q, hq, hq1⟩
    rcases List.mem_filter.mp hq with ⟨hqr, _⟩
    rcases List.mem_filter.mp hqr with ⟨hqm, hqc⟩
    have := key_unique hnd hmem q hqm hq1
    rw [this] at hqc
    simp [quiescenceWindow] at hqc
    simp [quiescenceWindow] at hgt
    omega

/-- Witness for C3 as amended: in a singleton pending map with the path seen
at time 0, a sweep at time 4 promotes the path. -/
theorem debounce_correctness_witness :
    "a.m4a" ∈ pendingReady [("a.m4a", 0)] 4 :=
  ((debounce_correctness [("a.m4a", 0)] "a.m4a" 0 7 4 (by decide)
    (by decide)).2.1).mpr (by decide)

/-- Negation of the skip condition of `process_existing_files`: the file is
enumerated by the `*.m4a` glob and is not (parsed and strictly older than
the cutoff). -/
def backfillConsidered (cutoff : Nat) (f : FileInfo) : Bool :=
  decide (pySuffix f.name = ".m4a") &&
    (match parse_date_from_filename f.name with
     | some d => ! decide (d < cutoff)
     | none => true)

theorem backfill_check_log (H : Bytes → String) (w : World) (env : ScanEnv)
    (acc : St × List String) (f : FileInfo) :
    (backfill_check H w env acc f).2 = acc.2 ++ [f.name] := by
  unfold backfill_check
  dsimp only
  split <;> rfl

theorem backfill_foldl_log (H : Bytes → String) (w : World) (env : ScanEnv) :
    ∀ (l : List FileInfo) (st : St) (log : List String),
      (l.foldl (backfill_check H w env) (st, log)).2 = log ++ l.map (fun f => f.name) := by
  intro l
  induction l with
  | nil => intro st log; simp
  | cons f t ih =>
    intro st log
    rw [List.foldl_cons]
    have hs : backfill_check H w env (st, log) f =
        ((backfill_check H w env (st, log) f).1, log ++ [f.name]) := by
      rw [← backfill_check_log H w env (st, log) f]
    rw [hs, ih]
    simp

theorem existing_step_log (H : Bytes → String) (w : World) (env : ScanEnv)
    (cutoff : Nat) (acc : St × List String) (f : FileInfo) :
    (existing_step H w env cutoff acc f).2 =
      if backfillConsidered cutoff f = true then acc.2 ++ [f.name] else acc.2 := by
  unfold existing_step backfillConsidered
  by_cases hsuf : pySuffix f.name = ".m4a"
  · rw [if_neg (by simpa using hsuf)]
    rcases hparse : parse_date_from_filename f.name with _ | d
    · simp [hsuf, backfill_check_log]
    · by_cases hold : d < cutoff
      · simp [hold]
      · simp [hsuf, hold, backfill_check_log]
  · rw [if_pos (by simpa using hsuf)]
    simp [hsuf]

theorem existing_foldl_log (H : Bytes → String) (w : World) (env : ScanEnv) (cutoff : Nat) :
    ∀ (files : List FileInfo) (acc : St × List String),
      (files.foldl (existing_step H w env cutoff) acc).2 =
        acc.2 ++ (files.filter (backfillConsidered cutoff)).map (fun f => f.name) := by
  intro files
  induction files with
  | nil => intro acc; simp
  | cons f t ih =>
    intro acc
    rw [List.foldl_cons, ih, existing_step_log, List.filter_cons]
    by_cases hc : backfillConsidered cutoff f = true <;> simp [hc]

theorem input_step_log (H : Bytes → String) (w : World) (env : ScanEnv)
    (files : List FileInfo) (acc : St × List String) (ext : String) :
    (input_step H w env files acc ext).2 =
      acc.2 ++ (files.filter (fun f => pySuffix f.name = ext)).map (fun f => f.name) := by
  unfold input_step
  rw [show acc = (acc.1, acc.2) from rfl]
  exact backfill_foldl_log H w env _ acc.1 acc.2

theorem input_fold_mono (H : Bytes → String) (w : World) (env : ScanEnv)
    (files : List FileInfo) :
    ∀ (exts : List String) (acc : St × List String) (x : String), x ∈ acc.2 →
      x ∈ (exts.foldl (input_step H w env files) acc).2 := by
  intro exts
  induction exts with
  | nil => exact fun acc x hx => hx
  | cons ext rest ih =>
    intro acc x hx
    rw [List.foldl_cons]
    refine ih _ x ?_
    rw [input_step_log]
    exact List.mem_append_left _ hx

theorem input_folder_mem_aux (H : Bytes → String) (w : World) (env : ScanEnv)
    (files : List FileInfo) (f : FileInfo) (hf : f ∈ files) :
    ∀ (exts : List String), pySuffix f.name ∈ exts →
      ∀ (acc : St × List String), f.name ∈ (exts.foldl (input_step H w env files) acc).2 := by
  intro exts
  induction exts with
  | nil => intro h; cases h
  | cons ext rest ih =>
    intro hmem acc
    rw [List.foldl_cons]
    rcases List.mem_cons.mp hmem with heq | htail
    · refine input_fold_mono H w env files rest _ f.name ?_
      rw [input_step_log]
      refine List.mem_append_right _ ?_
      exact List.mem_map.mpr ⟨f, List.mem_filter.mpr ⟨hf, by simpa using heq⟩, rfl⟩
    · exact ih htail _

/-- Claim C9.  Backfill selection: the startup scan over the watched
directory checks exactly the enumerated `*.m4a` files that are not
(dated and strictly older than the cutoff) — so a file whose name yields no
parseable timestamp is always checked, and one whose timestamp is within the
recency window is checked; the manual drop folder's scan checks every file
with a supported extension regardless of age; and in both scanners each
checked file goes through the shared hash-then-dedup-then-pipeline step,
which runs the very `process_audio_file` used for live events whenever the
dedup check is negative and skips it when positive. -/
theorem backfill_selection (H : Bytes → String) (w : World) (env : ScanEnv)
    (st : St) (files : List FileInfo) (cutoff : Nat) :
    ((process_existing_files H w env st files cutoff).2 =
        (files.filter (backfillConsidered cutoff)).map (fun f => f.name)) ∧
      (∀ f ∈ files, pySuffix f.name = ".m4a" →
        (parse_date_from_filename f.name = none ∨
          ∃ d, parse_date_from_filename f.name = some d ∧ ¬ d < cutoff) →
        f.name ∈ (process_existing_files H w env st files cutoff).2) ∧
      (∀ f ∈ files, pySuffix f.name ∈ supportedExts →
        f.name ∈ (process_input_folder H w env st files).2) ∧
      (∀ (st' : St) (log : List String) (f : FileInfo),
        is_already_transcribed st'.db (H f.content) = false →
        backfill_check H w env (st', log) f =
          ((process_audio_file H w (env f.name) st' (some f)).st, log ++ [f.name])) ∧
      (∀ (st' : St) (log : List String) (f : FileInfo),
        is_already_transcribed st'.db (H f.content) = true →
        backfill_check H w env (st', log) f = (st', log ++ [f.name])) := by
  have hlog : (process_existing_files H w env st files cutoff).2 =
      (files.filter (backfillConsidered cutoff)).map (fun f => f.name) := by
    unfold process_existing_files
    simpa using existing_foldl_log H w env cutoff files (st, [])
  refine ⟨hlog, ?_, ?_, ?_, ?_⟩
  · intro f hf hsuf hdate
    rw [hlog]
    have hc : backfillConsidered cutoff f = true := by
      unfold backfillConsidered
      rcases hdate with hnone | ⟨d, hd, hge⟩
      · rw [hnone]; simp [hsuf]
      · rw [hd]; simp [hsuf, hge]
    exact List.mem_map.mpr ⟨f, List.mem_filter.mpr ⟨hf, hc⟩, rfl⟩
  · intro f hf hmem
    exact input_folder_mem_aux H w env files f hf supportedExts hmem (st, [])
  · intro st' log f hfresh
    unfold backfill_check
    simp [hfresh]
  · intro st' log f hdup
    unfold backfill_check
    simp [hdup]

/-- Witness for C9: a one-file watched directory whose file has an
unparseable (undated) name is checked by the startup scan. -/
theorem backfill_selection_witness :
    "memo.m4a" ∈ (process_existing_files (fun _ => "h") ⟨none, 0⟩
      (fun _ => ⟨.fails, ⟨1, false⟩, .raises⟩) St.init
      [⟨"memo.m4a", "/vm/memo.m4a", 1500, [3]⟩] 20250101000000).2 :=
  (backfill_selection (fun _ => "h") ⟨none, 0⟩ (fun _ => ⟨.fails, ⟨1, false⟩, .raises⟩)
    St.init [⟨"memo.m4a", "/vm/memo.m4a", 1500, [3]⟩] 20250101000000).2.1
    ⟨"memo.m4a", "/vm/memo.m4a", 1500, [3]⟩ (by decide) (by decide)
    (Or.inl (by decide))

end TranscriptionApp
